import Mathlib

/-!
Shallow embedding of `src/github-rice-sorter.py`.

Strings are modelled as `List Char`.  The network is modelled by response
oracles passed as arguments; the base64 transport decoding of the README
payload is abstracted by letting the response carry the decoded text.
-/

namespace RiceSorter

/-- Python str-mode `\s`: exactly the code points `re`'s `\s` class
matches in str patterns — U+0009-U+000D, U+001C-U+0020, U+0085, U+00A0,
U+1680, U+2000-U+200A, U+2028, U+2029, U+202F, U+205F, U+3000. -/
def isSpaceCh (c : Char) : Bool :=
  (0x09 ≤ c.toNat && c.toNat ≤ 0x0d) || (0x1c ≤ c.toNat && c.toNat ≤ 0x20)
    || c.toNat == 0x85 || c.toNat == 0xa0 || c.toNat == 0x1680
    || (0x2000 ≤ c.toNat && c.toNat ≤ 0x200a)
    || c.toNat == 0x2028 || c.toNat == 0x2029 || c.toNat == 0x202f
    || c.toNat == 0x205f || c.toNat == 0x3000

/-- Character class `[^\]]` of the label group in the pattern on line 33. -/
def labelChar (c : Char) : Bool := c != ']'

/-- Character class `[^/]` of the owner segment. -/
def ownerChar (c : Char) : Bool := c != '/'

/-- Character class `[^/\s)+]` of the repo-name segment. -/
def nameChar (c : Char) : Bool :=
  c != '/' && !isSpaceCh c && c != ')' && c != '+'

/-- Character class `[^)\s]` of the sub-path tail. -/
def subChar (c : Char) : Bool := c != ')' && !isSpaceCh c

/-- The fixed host literal `https://github.com/` in the pattern. -/
def hostLit : List Char := "https://github.com/".toList

/-- Match a literal word at the head of the input, returning the remainder. -/
def litMatch : List Char → List Char → Option (List Char)
  | [], l => some l
  | _ :: _, [] => none
  | w :: ws, c :: cs => if c = w then litMatch ws cs else none

/-- Greedy `+`-quantified character class.  Because every class in the
pattern excludes the character that must follow it, the regex engine's
greedy match with backtracking has exactly one viable length, the maximal
munch; so this deterministic reading is faithful. -/
def munch1 (p : Char → Bool) (l : List Char) : Option (List Char × List Char) :=
  match l.takeWhile p with
  | [] => none
  | t => some (t, l.dropWhile p)

/-- The alternation `blob|tree|raw`.  The three words have pairwise distinct
first characters, so at most one branch can match and first-success order
is faithful to the regex. -/
def tryWords (l : List Char) : Option (List Char) :=
  match litMatch "blob".toList l with
  | some r => some r
  | none =>
    match litMatch "tree".toList l with
    | some r => some r
    | none => litMatch "raw".toList l

/-- Consume one expected literal character. -/
def expectChar (c : Char) : List Char → Option (List Char)
  | x :: xs => if x = c then some xs else none
  | [] => none

/-- The optional sub-path group `(?:/(?:blob|tree|raw)/[^)\s]+)` . -/
def subGroup (l : List Char) : Option (List Char) :=
  (expectChar '/' l).bind fun l1 =>
  (tryWords l1).bind fun l2 =>
  (expectChar '/' l2).bind fun l3 =>
  (munch1 subChar l3).map fun m => m.2

/-- After the repo-name segment: greedily try the optional sub-path group,
then the closing `\)`; on failure fall back to the zero-width reading of
the optional group (the regex's backtracking order). -/
def afterName (l : List Char) : Option (List Char) :=
  match subGroup l with
  | some l8 =>
    (match l8 with
     | ')' :: r => some r
     | _ =>
       match l with
       | ')' :: r => some r
       | _ => none)
  | none =>
    match l with
    | ')' :: r => some r
    | _ => none

/-- One attempt of the pattern
`\[([^\]]+)\]\((https://github\.com/[^/]+/[^/\s)+]+)(?:/(?:blob|tree|raw)/[^)\s]+)?\)`
anchored at the head of `l`.  Returns group 2 and the input remaining
after the whole match. -/
def matchAt (l : List Char) : Option (List Char × List Char) :=
  (expectChar '[' l).bind fun l1 =>
  (munch1 labelChar l1).bind fun lb =>
  (expectChar ']' lb.2).bind fun l2 =>
  (expectChar '(' l2).bind fun l3 =>
  (litMatch hostLit l3).bind fun l4 =>
  (munch1 ownerChar l4).bind fun ow =>
  (expectChar '/' ow.2).bind fun l6 =>
  (munch1 nameChar l6).bind fun nm =>
  (afterName nm.2).map fun rest => (hostLit ++ ow.1 ++ '/' :: nm.1, rest)

/-- `re.finditer` scan: try a match at each position, left to right; after
a match resume at its end (matches never overlap).  The fuel starts at the
input length; every step consumes at least one character, so it never runs
out. -/
def scanAux : Nat → List Char → List (List Char)
  | _, [] => []
  | 0, _ :: _ => []
  | fuel + 1, c :: tl =>
    match matchAt (c :: tl) with
    | some (g, rest) => g :: scanAux fuel rest
    | none => scanAux fuel tl

/-- All group-2 captures of the pattern over the document, in order. -/
def findIter (l : List Char) : List (List Char) := scanAux l.length l

/-- Python `url.rstrip('/')` (line 39). -/
def rstripSlash (u : List Char) : List Char :=
  (u.reverse.dropWhile (fun c => c == '/')).reverse

/-- The dedup loop of lines 36-42: append each value only if not already
present (exact equality). -/
def dedupF (l : List (List Char)) : List (List Char) :=
  l.foldl (fun acc u => if u ∈ acc then acc else acc ++ [u]) []

/-- `extract_github_urls` (lines 31-43). -/
def extract_github_urls (content : List Char) : List (List Char) :=
  dedupF ((findIter content).map rstripSlash)

/-- The tuple `(url, stars, description, language)` returned by
`get_repo_info` (line 45): one enriched repository record. -/
structure RepoInfo where
  url : List Char
  stars : Int
  description : List Char
  language : List Char
deriving DecidableEq, Repr

/-- A parsed JSON body of the repository-metadata endpoint: the status
code plus the three fields the program reads, each `none` when the key is
absent (Python `dict.get` with a default). -/
structure HttpResponse where
  status : Nat
  stargazers : Option Int
  description : Option (List Char)
  language : Option (List Char)

/-- Outcome of one metadata request: either a response or a raised
transport/parse exception. -/
inductive FetchResult where
  | response (r : HttpResponse)
  | exn

/-- `get_repo_info` (lines 45-70), with the network request modelled by
the `FetchResult` the request produces.  The token only decorates the
request headers and does not influence the control flow. -/
def get_repo_info (url : List Char) (res : FetchResult) : RepoInfo :=
  match res with
  | .response r =>
    if r.status = 200 then
      ⟨url, r.stargazers.getD 0, r.description.getD [], r.language.getD []⟩
    else
      ⟨url, 0, [], []⟩
  | .exn => ⟨url, 0, [], []⟩

/-- The enrichment loop of lines 88-93: one `get_repo_info` call per
extracted URL, results appended in order.  `oracle` gives the network's
answer to the request for each URL. -/
def enrichAll (oracle : List Char → FetchResult) : List (List Char) → List RepoInfo
  | [] => []
  | u :: us => get_repo_info u (oracle u) :: enrichAll oracle us

/-- Stable insertion keeping the list non-increasing by `stars`: the new
element (which comes from earlier in the original list) goes before every
element with a star count `≤` its own. -/
def insertByStars (x : RepoInfo) : List RepoInfo → List RepoInfo
  | [] => [x]
  | y :: ys => if x.stars ≥ y.stars then x :: y :: ys else y :: insertByStars x ys

/-- `sorted(repos_info, key=lambda x: x[1], reverse=True)` (line 96):
Python's sort is stable, and `reverse=True` reverses the key order while
keeping equal-key elements in input order; this insertion sort computes
exactly that stable non-increasing ordering. -/
def sortByStars : List RepoInfo → List RepoInfo
  | [] => []
  | x :: xs => insertByStars x (sortByStars xs)

/-- The lines (without trailing newline) written to `sorted_rices.txt` for
one record (lines 105-112): "Stars:" and "URL:" always, "Description:"
and "Language:" only when non-empty, then a 50-dash separator. -/
def recordLines (r : RepoInfo) : List (List Char) :=
  ("Stars: ".toList ++ (toString r.stars).toList)
    :: ("URL: ".toList ++ r.url)
    :: ((if r.description ≠ [] then ["Description: ".toList ++ r.description] else [])
        ++ (if r.language ≠ [] then ["Language: ".toList ++ r.language] else [])
        ++ [List.replicate 50 '-'])

/-- The per-record blocks of the text report, one block per sorted record. -/
def textRecords (rs : List RepoInfo) : List (List (List Char)) :=
  rs.map recordLines

/-- A JSON value as produced for `sorted_rices.json`. -/
inductive JVal where
  | str (s : List Char)
  | num (n : Int)
deriving DecidableEq, Repr

/-- The dict built for one record on lines 117-122: all four keys are
always present. -/
def jsonObj (r : RepoInfo) : List (List Char × JVal) :=
  [("url".toList, .str r.url),
   ("stars".toList, .num r.stars),
   ("description".toList, .str r.description),
   ("language".toList, .str r.language)]

/-- The array written to `sorted_rices.json` (lines 114-125): one object
per sorted record, covering all records. -/
def jsonData (rs : List RepoInfo) : List (List (List Char × JVal)) :=
  rs.map jsonObj

/-- Response of the README endpoint; `content` carries the base64-decoded
document text (transport decoding abstracted). -/
structure ReadmeResponse where
  status : Nat
  content : List Char

/-- `get_readme_content` (lines 16-29): any non-200 status raises an
exception carrying the status code (modelled by `Except.error status`). -/
def get_readme_content (r : ReadmeResponse) : Except Nat (List Char) :=
  if r.status ≠ 200 then .error r.status else .ok r.content

/-- The external world of one run: the README response and a metadata
response per repository URL. -/
structure Env where
  readme : ReadmeResponse
  repo : List Char → FetchResult

/-- Observable outcome of `main`: either the pipeline aborted into the
top-level handler with nothing written, or it finished and wrote the text
report and the JSON array. -/
inductive RunResult where
  | aborted (status : Nat)
  | finished (txt : List (List (List Char))) (js : List (List (List Char × JVal)))

/-- `main` (lines 72-141): fetch README, extract, enrich, sort, persist.
A failed fetch raises; the catch-all prints and terminates with neither
output file written. -/
def main (env : Env) : RunResult :=
  match get_readme_content env.readme with
  | .error s => .aborted s
  | .ok content =>
    let urls := extract_github_urls content
    let repos := enrichAll env.repo urls
    let sortedRepos := sortByStars repos
    .finished (textRecords sortedRepos) (jsonData sortedRepos)

/-! ### Lemmas about the stable sort -/

theorem insertByStars_perm (x : RepoInfo) (l : List RepoInfo) :
    List.Perm (insertByStars x l) (x :: l) := by
  induction l with
  | nil => simp [insertByStars]
  | cons y ys ih =>
    by_cases h : x.stars ≥ y.stars
    · simp [insertByStars, h]
    · simp only [insertByStars, if_neg h]
      exact (ih.cons y).trans (List.Perm.swap x y ys)

theorem mem_insertByStars {a x : RepoInfo} {l : List RepoInfo} :
    a ∈ insertByStars x l ↔ a = x ∨ a ∈ l := by
  rw [(insertByStars_perm x l).mem_iff, List.mem_cons]

theorem pairwise_insertByStars (x : RepoInfo) {l : List RepoInfo}
    (h : l.Pairwise (fun a b => b.stars ≤ a.stars)) :
    (insertByStars x l).Pairwise (fun a b => b.stars ≤ a.stars) := by
  induction l with
  | nil => simp [insertByStars]
  | cons y ys ih =>
    rw [List.pairwise_cons] at h
    by_cases hx : x.stars ≥ y.stars
    · simp only [insertByStars, if_pos hx]
      refine List.Pairwise.cons ?_ (List.pairwise_cons.mpr h)
      intro b hb
      rcases List.mem_cons.mp hb with rfl | hb'
      · exact hx
      · exact le_trans (h.1 b hb') hx
    · simp only [insertByStars, if_neg hx]
      refine List.Pairwise.cons ?_ (ih h.2)
      intro b hb
      rcases mem_insertByStars.mp hb with rfl | hb'
      · exact le_of_lt (lt_of_not_ge hx)
      · exact h.1 b hb'

theorem sortByStars_perm (l : List RepoInfo) : List.Perm (sortByStars l) l := by
  induction l with
  | nil => simp [sortByStars]
  | cons x xs ih => exact (insertByStars_perm x (sortByStars xs)).trans (ih.cons x)

theorem sortByStars_pairwise (l : List RepoInfo) :
    (sortByStars l).Pairwise (fun a b => b.stars ≤ a.stars) := by
  induction l with
  | nil => simp [sortByStars]
  | cons x xs ih => exact pairwise_insertByStars x ih

theorem filter_insertByStars (x : RepoInfo) (l : List RepoInfo) (s : Int) :
    (insertByStars x l).filter (fun r => r.stars == s)
      = (if x.stars = s then [x] else []) ++ l.filter (fun r => r.stars == s) := by
  induction l with
  | nil => by_cases h : x.stars = s <;> simp [insertByStars, List.filter_cons, h]
  | cons y ys ih =>
    by_cases hx : x.stars ≥ y.stars
    · simp only [insertByStars, if_pos hx, List.filter_cons]
      by_cases hxs : x.stars = s <;> simp [hxs]
    · have hlt : x.stars < y.stars := lt_of_not_ge hx
      simp only [insertByStars, if_neg hx, List.filter_cons, ih]
      by_cases hxs : x.stars = s <;> by_cases hys : y.stars = s
      · omega
      · simp [hxs, hys]
      · simp [hxs, hys]
      · simp [hxs, hys]

theorem filter_sortByStars (l : List RepoInfo) (s : Int) :
    (sortByStars l).filter (fun r => r.stars == s)
      = l.filter (fun r => r.stars == s) := by
  induction l with
  | nil => simp [sortByStars]
  | cons x xs ih =>
    by_cases hxs : x.stars = s <;>
      simp [sortByStars, filter_insertByStars, List.filter_cons, hxs, ih]

/-! ### Lemmas about enrichment and the report -/

/-- A metadata request outcome the code treats as a failure: a non-200
status or a raised exception. -/
def isFailure : FetchResult → Bool
  | .response r => r.status != 200
  | .exn => true

theorem enrichAll_eq_map (oracle : List Char → FetchResult) (urls : List (List Char)) :
    enrichAll oracle urls = urls.map (fun u => get_repo_info u (oracle u)) := by
  induction urls with
  | nil => rfl
  | cons u us ih => simp [enrichAll, ih]

theorem cons_ne_head {a b : Char} (h : ¬ a = b) (xs ys : List Char) :
    a :: xs ≠ b :: ys := by
  intro he
  injection he with h1 _
  exact h h1

theorem descLine_iff (r : RepoInfo) :
    (∃ s, ("Description: ".toList ++ s) ∈ recordLines r) ↔ r.description ≠ [] := by
  constructor
  · rintro ⟨s, hs⟩ hd
    simp only [recordLines, hd, ne_eq, not_true_eq_false, if_false] at hs
    by_cases hl : r.language = []
    · simp only [hl, ne_eq, not_true_eq_false, if_false, List.nil_append,
        List.mem_cons, List.mem_append, List.mem_singleton, List.not_mem_nil,
        or_false] at hs
      rcases hs with hs | hs | hs
      · exact cons_ne_head (by decide) _ _ hs
      · exact cons_ne_head (by decide) _ _ hs
      · exact cons_ne_head (by decide) _ _ hs
    · simp only [hl, ne_eq, not_false_eq_true, if_true, List.singleton_append,
        List.mem_cons, List.mem_append, List.mem_singleton, List.not_mem_nil,
        or_false] at hs
      rcases hs with hs | hs | (hs | hs) | hs
      · exact cons_ne_head (by decide) _ _ hs
      · exact cons_ne_head (by decide) _ _ hs
      · exact hs.elim
      · exact cons_ne_head (by decide) _ _ hs
      · exact cons_ne_head (by decide) _ _ hs
  · intro hd
    refine ⟨r.description, ?_⟩
    simp [recordLines, hd]

theorem langLine_iff (r : RepoInfo) :
    (∃ s, ("Language: ".toList ++ s) ∈ recordLines r) ↔ r.language ≠ [] := by
  constructor
  · rintro ⟨s, hs⟩ hl
    simp only [recordLines, hl, ne_eq, not_true_eq_false, if_false] at hs
    by_cases hd : r.description = []
    · simp only [hd, ne_eq, not_true_eq_false, if_false, List.nil_append,
        List.mem_cons, List.mem_append, List.mem_singleton, List.not_mem_nil,
        or_false] at hs
      rcases hs with hs | hs | hs
      · exact cons_ne_head (by decide) _ _ hs
      · exact cons_ne_head (by decide) _ _ hs
      · exact cons_ne_head (by decide) _ _ hs
    · simp only [hd, ne_eq, not_false_eq_true, if_true, List.singleton_append,
        List.mem_cons, List.mem_append, List.mem_singleton, List.not_mem_nil,
        or_false] at hs
      rcases hs with hs | hs | hs | hs
      · exact cons_ne_head (by decide) _ _ hs
      · exact cons_ne_head (by decide) _ _ hs
      · exact cons_ne_head (by decide) _ _ hs
      · exact cons_ne_head (by decide) _ _ hs
  · intro hl
    refine ⟨r.language, ?_⟩
    simp [recordLines, hl]

/-! ### Lemmas about the dedup loop -/

/-- Recursive reading of the dedup loop relative to an accumulator of
already-emitted URLs. -/
def ddAux (acc : List (List Char)) : List (List Char) → List (List Char)
  | [] => []
  | x :: l => if x ∈ acc then ddAux acc l else x :: ddAux (acc ++ [x]) l

theorem foldl_dedup_eq (acc : List (List Char)) (l : List (List Char)) :
    l.foldl (fun a u => if u ∈ a then a else a ++ [u]) acc = acc ++ ddAux acc l := by
  induction l generalizing acc with
  | nil => simp [ddAux]
  | cons x l ih =>
    by_cases h : x ∈ acc
    · simp [List.foldl_cons, h, ddAux, ih]
    · simp only [List.foldl_cons, if_neg h, ddAux, ih (acc ++ [x])]
      simp

theorem dedupF_eq_ddAux (l : List (List Char)) : dedupF l = ddAux [] l := by
  simpa using foldl_dedup_eq [] l

theorem mem_ddAux_not_acc {acc l : List (List Char)} {b : List Char}
    (hb : b ∈ ddAux acc l) : b ∉ acc := by
  induction l generalizing acc with
  | nil => simp [ddAux] at hb
  | cons x l ih =>
    by_cases h : x ∈ acc
    · rw [ddAux, if_pos h] at hb
      exact ih hb
    · rw [ddAux, if_neg h] at hb
      rcases List.mem_cons.mp hb with rfl | hb'
      · exact h
      · intro hacc
        exact ih hb' (List.mem_append_left _ hacc)

theorem ddAux_nodup (acc l : List (List Char)) : (ddAux acc l).Nodup := by
  induction l generalizing acc with
  | nil => simp [ddAux]
  | cons x l ih =>
    by_cases h : x ∈ acc
    · rw [ddAux, if_pos h]
      exact ih acc
    · rw [ddAux, if_neg h]
      refine List.nodup_cons.mpr ⟨?_, ih (acc ++ [x])⟩
      intro hx
      exact mem_ddAux_not_acc hx (List.mem_append_right _ (by simp))

/-- Index of the first occurrence of `u` in `l` (length of `l` when
absent): the position the dedup loop keys its ordering on. -/
def firstIdx (u : List Char) : List (List Char) → Nat
  | [] => 0
  | x :: xs => if x = u then 0 else firstIdx u xs + 1

theorem firstIdx_cons_self (u : List Char) (l : List (List Char)) :
    firstIdx u (u :: l) = 0 := by simp [firstIdx]

theorem firstIdx_cons_ne {x u : List Char} (l : List (List Char)) (h : x ≠ u) :
    firstIdx u (x :: l) = firstIdx u l + 1 := by simp [firstIdx, h]

theorem ddAux_pairwise (acc l : List (List Char)) :
    (ddAux acc l).Pairwise (fun a b => firstIdx a l < firstIdx b l) := by
  induction l generalizing acc with
  | nil => simp [ddAux]
  | cons x l ih =>
    by_cases h : x ∈ acc
    · rw [ddAux, if_pos h]
      refine (ih acc).imp_of_mem ?_
      intro a b ha hb hab
      have hax : x ≠ a := fun he => mem_ddAux_not_acc ha (he ▸ h)
      have hbx : x ≠ b := fun he => mem_ddAux_not_acc hb (he ▸ h)
      rw [firstIdx_cons_ne l hax, firstIdx_cons_ne l hbx]
      omega
    · rw [ddAux, if_neg h]
      refine List.Pairwise.cons ?_ ?_
      · intro b hb
        have hbx : x ≠ b := by
          intro he
          exact mem_ddAux_not_acc hb (he ▸ List.mem_append_right _ (by simp))
        rw [firstIdx_cons_self, firstIdx_cons_ne l hbx]
        omega
      · refine (ih (acc ++ [x])).imp_of_mem ?_
        intro a b ha hb hab
        have hax : x ≠ a := by
          intro he
          exact mem_ddAux_not_acc ha (he ▸ List.mem_append_right _ (by simp))
        have hbx : x ≠ b := by
          intro he
          exact mem_ddAux_not_acc hb (he ▸ List.mem_append_right _ (by simp))
        rw [firstIdx_cons_ne l hax, firstIdx_cons_ne l hbx]
        omega

theorem mem_ddAux_sub {acc l : List (List Char)} {b : List Char}
    (hb : b ∈ ddAux acc l) : b ∈ l := by
  induction l generalizing acc with
  | nil => simp [ddAux] at hb
  | cons x l ih =>
    by_cases h : x ∈ acc
    · rw [ddAux, if_pos h] at hb
      exact List.mem_cons_of_mem x (ih hb)
    · rw [ddAux, if_neg h] at hb
      rcases List.mem_cons.mp hb with rfl | hb'
      · exact List.mem_cons_self b l
      · exact List.mem_cons_of_mem x (ih hb')

/-! ### Symbolic evaluation of the matcher on a well-formed link -/

theorem takeWhile_append_all {p : Char → Bool} {xs : List Char}
    (h : ∀ c ∈ xs, p c = true) {y : Char} (hy : p y = false) (ys : List Char) :
    (xs ++ y :: ys).takeWhile p = xs := by
  induction xs with
  | nil =>
    rw [List.nil_append]
    exact List.takeWhile_cons_of_neg (by simp [hy])
  | cons a xs ih =>
    have ha : p a = true := h a (by simp)
    rw [List.cons_append, List.takeWhile_cons_of_pos ha,
      ih (fun c hc => h c (by simp [hc]))]

theorem dropWhile_append_all {p : Char → Bool} {xs : List Char}
    (h : ∀ c ∈ xs, p c = true) {y : Char} (hy : p y = false) (ys : List Char) :
    (xs ++ y :: ys).dropWhile p = y :: ys := by
  induction xs with
  | nil =>
    rw [List.nil_append]
    exact List.dropWhile_cons_of_neg (by simp [hy])
  | cons a xs ih =>
    have ha : p a = true := h a (by simp)
    rw [List.cons_append, List.dropWhile_cons_of_pos ha,
      ih (fun c hc => h c (by simp [hc]))]

theorem munch1_append {p : Char → Bool} {xs : List Char} (hne : xs ≠ [])
    (h : ∀ c ∈ xs, p c = true) {y : Char} (hy : p y = false) (ys : List Char) :
    munch1 p (xs ++ y :: ys) = some (xs, y :: ys) := by
  unfold munch1
  rw [takeWhile_append_all h hy ys, dropWhile_append_all h hy ys]
  cases xs with
  | nil => exact absurd rfl hne
  | cons a as => rfl

theorem litMatch_append (w r : List Char) : litMatch w (w ++ r) = some r := by
  induction w with
  | nil => rfl
  | cons a as ih => simp [litMatch, ih]

theorem tryWords_eval {word : List Char}
    (hw : word = "blob".toList ∨ word = "tree".toList ∨ word = "raw".toList)
    (f : List Char) :
    tryWords (word ++ f) = some f := by
  rcases hw with rfl | rfl | rfl
  · unfold tryWords
    rw [litMatch_append]
  · unfold tryWords
    rw [show litMatch "blob".toList ("tree".toList ++ f) = none from rfl, litMatch_append]
  · unfold tryWords
    rw [show litMatch "blob".toList ("raw".toList ++ f) = none from rfl,
      show litMatch "tree".toList ("raw".toList ++ f) = none from rfl, litMatch_append]

theorem expectChar_cons_self (c : Char) (l : List Char) :
    expectChar c (c :: l) = some l := by simp [expectChar]

/-- `matchAt` on a well-formed link whose sub-path starts with
`blob`, `tree` or `raw`: the match succeeds, captures only the
owner/name base URL, and consumes the whole link. -/
theorem matchAt_link (label ow nm word rest : List Char)
    (hlabne : label ≠ []) (hlab : ∀ c ∈ label, labelChar c = true)
    (howne : ow ≠ []) (how : ∀ c ∈ ow, ownerChar c = true)
    (hnmne : nm ≠ []) (hnm : ∀ c ∈ nm, nameChar c = true)
    (hw : word = "blob".toList ∨ word = "tree".toList ∨ word = "raw".toList)
    (hrne : rest ≠ []) (hr : ∀ c ∈ rest, subChar c = true) :
    matchAt ('[' :: (label ++ ']' :: '(' ::
        (hostLit ++ (ow ++ '/' :: (nm ++ '/' :: (word ++ '/' :: (rest ++ [')'])))))))
      = some (hostLit ++ ow ++ '/' :: nm, []) := by
  have hmr : munch1 subChar (rest ++ [')']) = some (rest, [')']) :=
    munch1_append hrne hr (by decide) []
  have hsub : subGroup ('/' :: (word ++ '/' :: (rest ++ [')']))) = some [')'] := by
    simp only [subGroup, expectChar_cons_self, Option.some_bind,
      tryWords_eval hw, hmr, Option.map_some']
  have haft : afterName ('/' :: (word ++ '/' :: (rest ++ [')']))) = some [] := by
    simp only [afterName, hsub]
  unfold matchAt
  simp only [expectChar_cons_self, Option.some_bind,
    munch1_append hlabne hlab (show labelChar ']' = false from rfl),
    munch1_append howne how (show ownerChar '/' = false from rfl),
    munch1_append hnmne hnm (show nameChar '/' = false from rfl),
    litMatch_append, haft, Option.map_some']

theorem munch1_eq_some {p : Char → Bool} {l t r : List Char}
    (h : munch1 p l = some (t, r)) :
    t = l.takeWhile p ∧ r = l.dropWhile p ∧ t ≠ [] := by
  unfold munch1 at h
  cases htw : l.takeWhile p with
  | nil => rw [htw] at h; simp at h
  | cons c cs =>
    rw [htw] at h
    simp only [Option.some.injEq, Prod.mk.injEq] at h
    exact ⟨h.1.symm, h.2.symm, by rw [← h.1]; simp⟩

theorem matchAt_shape {l g rest : List Char} (h : matchAt l = some (g, rest)) :
    ∃ ow nm, g = hostLit ++ ow ++ '/' :: nm ∧ ow ≠ [] ∧ nm ≠ []
      ∧ ∀ c ∈ nm, nameChar c = true := by
  unfold matchAt at h
  simp only [Option.bind_eq_some, Option.map_eq_some'] at h
  obtain ⟨l1, _, lb, _, l2, _, l3, _, l4, _, ow, how, l6, _, nm, hnm, rest', _, hpair⟩ := h
  obtain ⟨hnm1, _, hnmne⟩ := munch1_eq_some hnm
  obtain ⟨_, _, howne⟩ := munch1_eq_some how
  have hg : g = hostLit ++ ow.1 ++ '/' :: nm.1 := by
    have := congrArg Prod.fst hpair
    simpa using this.symm
  refine ⟨ow.1, nm.1, hg, howne, hnmne, ?_⟩
  intro c hc
  rw [hnm1] at hc
  exact List.mem_takeWhile_imp hc

theorem scanAux_shape {fuel : Nat} {l g : List Char}
    (hg : g ∈ scanAux fuel l) :
    ∃ ow nm, g = hostLit ++ ow ++ '/' :: nm ∧ ow ≠ [] ∧ nm ≠ []
      ∧ ∀ c ∈ nm, nameChar c = true := by
  induction fuel generalizing l with
  | zero => cases l <;> simp [scanAux] at hg
  | succ n ih =>
    cases l with
    | nil => simp [scanAux] at hg
    | cons c tl =>
      rw [scanAux] at hg
      cases hm : matchAt (c :: tl) with
      | none => rw [hm] at hg; exact ih hg
      | some pr =>
        rw [hm] at hg
        rcases List.mem_cons.mp hg with rfl | hg'
        · exact matchAt_shape (by rw [hm])
        · exact ih hg'

theorem notSlash_of_nameChar {c : Char} (h : nameChar c = true) : ¬ c = '/' := by
  simp only [nameChar, Bool.and_eq_true, bne_iff_ne, ne_eq] at h
  exact h.1.1.1

theorem rstripSlash_append_of_no_slash (pre nm : List Char) (hne : nm ≠ [])
    (h : ∀ c ∈ nm, ¬ c = '/') : rstripSlash (pre ++ nm) = pre ++ nm := by
  unfold rstripSlash
  rw [List.reverse_append]
  cases hrev : nm.reverse with
  | nil => exact absurd (by simpa using hrev) hne
  | cons c cs =>
    have hc : c ∈ nm := by
      rw [← List.mem_reverse, hrev]
      simp
    have hcs : ¬ ((c == '/') = true) := by simp [h c hc]
    have hd : List.dropWhile (fun ch => ch == '/') (c :: (cs ++ pre.reverse))
        = c :: (cs ++ pre.reverse) := List.dropWhile_cons_of_neg hcs
    rw [List.cons_append, hd, ← List.cons_append, ← hrev,
      ← List.reverse_append, List.reverse_reverse]

end RiceSorter

namespace RiceSorter

/-! ### Claim theorems -/

/-- C1: for every list of enriched records, the ranker's output is sorted
non-increasing by `star_count`, and records with equal `star_count` keep
their original discovery order (stable sort); in particular, star counts
[5, 10, 10, 2] in discovery order sort to [10(first), 10(second), 5, 2]. -/
theorem claim_C1 :
    (∀ l : List RepoInfo,
       (sortByStars l).Pairwise (fun a b => b.stars ≤ a.stars)
       ∧ ∀ s : Int,
           (sortByStars l).filter (fun r => r.stars == s)
             = l.filter (fun r => r.stars == s))
    ∧ sortByStars
        [⟨"a".toList, 5, [], []⟩, ⟨"b".toList, 10, [], []⟩,
         ⟨"c".toList, 10, [], []⟩, ⟨"d".toList, 2, [], []⟩]
      = [⟨"b".toList, 10, [], []⟩, ⟨"c".toList, 10, [], []⟩,
         ⟨"a".toList, 5, [], []⟩, ⟨"d".toList, 2, [], []⟩] := by
  refine ⟨fun l => ⟨sortByStars_pairwise l, fun s => filter_sortByStars l s⟩, ?_⟩
  decide

/-- C2: on a document containing both `[a](https://github.com/x/y)` and
`[b](https://github.com/x/y/blob/main/f.txt)`, the extractor yields
exactly one entry, `https://github.com/x/y`. -/
theorem claim_C2 :
    extract_github_urls
      "[a](https://github.com/x/y) and [b](https://github.com/x/y/blob/main/f.txt)".toList
      = ["https://github.com/x/y".toList] := by decide

/-- C3: a non-200 metadata response or a raised exception makes the
enricher return the degraded tuple `(url, 0, "", "")`, and the enrichment
loop still produces one record for every URL — a single failure is never
fatal. -/
theorem claim_C3 :
    (∀ (url : List Char) (res : FetchResult),
        isFailure res = true → get_repo_info url res = ⟨url, 0, [], []⟩)
    ∧ (∀ (oracle : List Char → FetchResult) (urls : List (List Char)),
        enrichAll oracle urls = urls.map (fun u => get_repo_info u (oracle u))
        ∧ (enrichAll oracle urls).length = urls.length) := by
  constructor
  · intro url res h
    cases res with
    | response r =>
      have h200 : ¬ r.status = 200 := by simpa [isFailure] using h
      simp [get_repo_info, h200]
    | exn => rfl
  · intro oracle urls
    refine ⟨enrichAll_eq_map oracle urls, ?_⟩
    simp [enrichAll_eq_map]

/-- Witness for C3 at a concrete failing response (HTTP 404) in a
two-URL run: the failed record degrades and the other URL is still
processed. -/
theorem claim_C3_witness :
    isFailure (.response ⟨404, none, none, none⟩) = true
    ∧ get_repo_info "https://github.com/x/y".toList (.response ⟨404, none, none, none⟩)
        = ⟨"https://github.com/x/y".toList, 0, [], []⟩
    ∧ (enrichAll
        (fun u => if u = "https://github.com/x/y".toList
                  then .response ⟨404, none, none, none⟩
                  else .response ⟨200, some 7, none, none⟩)
        ["https://github.com/x/y".toList, "https://github.com/a/b".toList]).length = 2 :=
  ⟨by decide,
   claim_C3.1 "https://github.com/x/y".toList (.response ⟨404, none, none, none⟩) (by decide),
   (claim_C3.2 _ ["https://github.com/x/y".toList, "https://github.com/a/b".toList]).2⟩

/-- C4 counterexample: for a link whose sub-path is `wiki` (or `issues`),
the pattern does not match at all — the extractor returns no entry rather
than the base `https://github.com/x/y`, so sub-paths are *not* discarded
regardless of what they are. -/
theorem claim_C4_counterexample :
    extract_github_urls "[b](https://github.com/x/y/wiki)".toList = []
    ∧ extract_github_urls "[b](https://github.com/x/y/wiki)".toList
        ≠ ["https://github.com/x/y".toList]
    ∧ extract_github_urls "[b](https://github.com/x/y/issues/3)".toList = [] := by
  refine ⟨by decide, by decide, by decide⟩

/-- C4 (amended): for every markdown link `[label](url)` whose url is the
fixed host prefix, an owner/name two-segment path, and a sub-path whose
first segment is `blob`, `tree` or `raw`, the extractor matches the link,
keeps only the owner/name portion and discards the sub-path.  (Sub-paths
starting with any other segment, e.g. `wiki` or `issues`, are not matched
at all — see the counterexample.) -/
theorem claim_C4 :
    ∀ label ow nm word rest : List Char,
      label ≠ [] → (∀ c ∈ label, labelChar c = true) →
      ow ≠ [] → (∀ c ∈ ow, ownerChar c = true) →
      nm ≠ [] → (∀ c ∈ nm, nameChar c = true) →
      (word = "blob".toList ∨ word = "tree".toList ∨ word = "raw".toList) →
      rest ≠ [] → (∀ c ∈ rest, subChar c = true) →
      extract_github_urls ('[' :: (label ++ ']' :: '(' ::
          (hostLit ++ (ow ++ '/' :: (nm ++ '/' :: (word ++ '/' :: (rest ++ [')'])))))))
        = [hostLit ++ ow ++ '/' :: nm] := by
  intro label ow nm word rest hlabne hlab howne how hnmne hnm hw hrne hr
  have hm := matchAt_link label ow nm word rest hlabne hlab howne how hnmne hnm hw hrne hr
  unfold extract_github_urls findIter
  rw [List.length_cons]
  simp only [scanAux, hm]
  rw [List.map_cons, List.map_nil]
  have hns : ∀ c ∈ nm, ¬ c = '/' := fun c hc => notSlash_of_nameChar (hnm c hc)
  rw [show hostLit ++ ow ++ '/' :: nm = (hostLit ++ ow ++ ['/']) ++ nm from by simp]
  rw [rstripSlash_append_of_no_slash _ _ hnmne hns]
  simp [dedupF]

/-- Witness for the amended C4 at the concrete link
`[a](https://github.com/x/y/blob/main)`. -/
theorem claim_C4_witness :
    ("a".toList ≠ [] ∧ (∀ c ∈ "a".toList, labelChar c = true)
      ∧ "x".toList ≠ [] ∧ (∀ c ∈ "x".toList, ownerChar c = true)
      ∧ "y".toList ≠ [] ∧ (∀ c ∈ "y".toList, nameChar c = true)
      ∧ ("blob".toList = "blob".toList ∨ "blob".toList = "tree".toList
          ∨ "blob".toList = "raw".toList)
      ∧ "main".toList ≠ [] ∧ (∀ c ∈ "main".toList, subChar c = true))
    ∧ extract_github_urls ('[' :: ("a".toList ++ ']' :: '(' ::
          (hostLit ++ ("x".toList ++ '/' :: ("y".toList ++ '/' ::
            ("blob".toList ++ '/' :: ("main".toList ++ [')'])))))))
        = [hostLit ++ "x".toList ++ '/' :: "y".toList] :=
  ⟨by decide,
   claim_C4 "a".toList "x".toList "y".toList "blob".toList "main".toList
     (by decide) (by decide) (by decide) (by decide) (by decide) (by decide)
     (by decide) (by decide) (by decide)⟩

/-- C5: for every input document the extractor's output has no duplicate
strings (exact, case-sensitive comparison — the dedup is `u ∈ acc` on raw
strings), and entries are ordered by the position of their first
occurrence among the matched (rstripped) URLs, regardless of where later
duplicates occur. -/
theorem claim_C5 :
    ∀ content : List Char,
      (extract_github_urls content).Nodup
      ∧ (extract_github_urls content).Pairwise
          (fun a b => firstIdx a ((findIter content).map rstripSlash)
                    < firstIdx b ((findIter content).map rstripSlash)) := by
  intro content
  rw [extract_github_urls, dedupF_eq_ddAux]
  exact ⟨ddAux_nodup _ _, ddAux_pairwise _ _⟩

/-- C6: every URL the extractor outputs starts with the fixed host
literal `https://github.com/`; a `https://gitlab.com/x/y` link never
appears. -/
theorem claim_C6 :
    (∀ (content u : List Char),
        u ∈ extract_github_urls content → ∃ t, u = hostLit ++ t)
    ∧ extract_github_urls "[a](https://gitlab.com/x/y)".toList = [] := by
  constructor
  · intro content u hu
    rw [extract_github_urls, dedupF_eq_ddAux] at hu
    obtain ⟨g, hg, rfl⟩ := List.mem_map.mp (mem_ddAux_sub hu)
    obtain ⟨ow, nm, rfl, _, hnm, hcls⟩ := scanAux_shape hg
    have hns : ∀ c ∈ nm, ¬ c = '/' := fun c hc => notSlash_of_nameChar (hcls c hc)
    have hsplit : hostLit ++ ow ++ '/' :: nm = (hostLit ++ ow ++ ['/']) ++ nm := by simp
    rw [hsplit, rstripSlash_append_of_no_slash _ _ hnm hns]
    exact ⟨ow ++ '/' :: nm, by simp⟩
  · decide

/-- Witness for C6 on a concrete document: the extracted URL indeed
starts with the host literal. -/
theorem claim_C6_witness :
    "https://github.com/x/y".toList
        ∈ extract_github_urls "[a](https://github.com/x/y)".toList
    ∧ ∃ t, "https://github.com/x/y".toList = hostLit ++ t :=
  ⟨by decide, claim_C6.1 "[a](https://github.com/x/y)".toList _ (by decide)⟩

/-- C7: a non-200 response for the list document raises a fatal error
carrying the status code; `main` aborts into the top-level handler and
neither output artifact is produced. -/
theorem claim_C7 (env : Env) (h : env.readme.status ≠ 200) :
    get_readme_content env.readme = .error env.readme.status
    ∧ main env = .aborted env.readme.status := by
  have hg : get_readme_content env.readme = .error env.readme.status := by
    simp [get_readme_content, h]
  exact ⟨hg, by simp [main, hg]⟩

/-- Witness for C7: a 404 on the README fetch aborts the whole run. -/
theorem claim_C7_witness :
    (404 : Nat) ≠ 200
    ∧ (get_readme_content (⟨⟨404, []⟩, fun _ => .exn⟩ : Env).readme = .error 404
       ∧ main (⟨⟨404, []⟩, fun _ => .exn⟩ : Env) = .aborted 404) :=
  ⟨by decide, claim_C7 ⟨⟨404, []⟩, fun _ => .exn⟩ (by decide)⟩

/-- C8: the text report block of a record carries a "Description: " line
exactly when the description is non-empty (likewise "Language: "), while
the JSON output always has all four keys for every record — and one
object per record, covering all of them. -/
theorem claim_C8 :
    ∀ (r : RepoInfo) (rs : List RepoInfo),
      ((∃ s, ("Description: ".toList ++ s) ∈ recordLines r) ↔ r.description ≠ [])
      ∧ ((∃ s, ("Language: ".toList ++ s) ∈ recordLines r) ↔ r.language ≠ [])
      ∧ (jsonObj r).map Prod.fst
          = ["url".toList, "stars".toList, "description".toList, "language".toList]
      ∧ (jsonData rs).length = rs.length := by
  intro r rs
  exact ⟨descLine_iff r, langLine_iff r, rfl, by simp [jsonData]⟩

/-- C9: on every branch — 200 success, non-200 failure, or exception —
the enricher's result tuple starts with exactly the input URL. -/
theorem claim_C9 :
    ∀ (url : List Char) (res : FetchResult), (get_repo_info url res).url = url := by
  intro url res
  cases res with
  | response r => by_cases h : r.status = 200 <;> simp [get_repo_info, h]
  | exn => rfl

/-- C10: the enrichment loop yields exactly one record per extracted URL,
sorting permutes those records, and both output representations hold
exactly one entry per URL — nothing is dropped or duplicated after
extraction. -/
theorem claim_C10 :
    ∀ (oracle : List Char → FetchResult) (urls : List (List Char)),
      enrichAll oracle urls = urls.map (fun u => get_repo_info u (oracle u))
      ∧ (enrichAll oracle urls).length = urls.length
      ∧ List.Perm (sortByStars (enrichAll oracle urls)) (enrichAll oracle urls)
      ∧ (textRecords (sortByStars (enrichAll oracle urls))).length = urls.length
      ∧ (jsonData (sortByStars (enrichAll oracle urls))).length = urls.length := by
  intro oracle urls
  have hlen : (enrichAll oracle urls).length = urls.length := by
    simp [enrichAll_eq_map]
  have hsort := sortByStars_perm (enrichAll oracle urls)
  refine ⟨enrichAll_eq_map oracle urls, hlen, hsort, ?_, ?_⟩
  · simp [textRecords, hsort.length_eq, hlen]
  · simp [jsonData, hsort.length_eq, hlen]

end RiceSorter
